import Mathlib

/-!
# Verification of the LinketySplit SDK validation core

Shallow embedding of the validation and purchase-link payload construction
logic of the `linketysplit-js` SDK:

* `validateArticlePricing` and `validateArticlePermalink` from
  `src/validators.ts` (the most complete validator variant, which the
  design notes designate as authoritative);
* the payload-building prefix of `PublicationSDK.createArticlePurchaseUrl`
  from the SDK variant that routes its arguments through the validators.

JavaScript numbers are modelled by `JSNum`: `NaN`, the two infinities, and
finite values as exact rationals.  The validators only compare numbers and
test integrality — they never do arithmetic whose rounding could diverge
from IEEE doubles — so exact rationals are a faithful carrier; the model is
merely more general (it also covers non-representable rationals).
Exceptions (`throw new Error(msg)`) are modelled with `Except String`.
-/

instance {ε α : Type _} [DecidableEq ε] [DecidableEq α] : DecidableEq (Except ε α) := fun
  | .error a, .error b =>
    if h : a = b then .isTrue (by rw [h])
    else .isFalse (by intro he; cases he; exact h rfl)
  | .error _, .ok _ => .isFalse (by intro h; cases h)
  | .ok _, .error _ => .isFalse (by intro h; cases h)
  | .ok a, .ok b =>
    if h : a = b then .isTrue (by rw [h])
    else .isFalse (by intro he; cases he; exact h rfl)

/-- A JavaScript number: `NaN`, `Infinity`, `-Infinity`, or a finite value
(modelled as an exact rational). -/
inductive JSNum where
  | nan : JSNum
  | posInf : JSNum
  | negInf : JSNum
  | num : ℚ → JSNum
deriving DecidableEq

namespace JSNum

/-- The `Number.isNaN` test. -/
def isNaN : JSNum → Bool
  | nan => true
  | _ => false

/-- The `Number.isInteger` test: true exactly for finite values with denominator 1
(`Number.isInteger` is false on `NaN` and the infinities). -/
def isInteger : JSNum → Bool
  | num q => q.den == 1
  | _ => false

/-- The JavaScript `<=` comparison: false whenever either side is `NaN`. -/
def jsLe : JSNum → JSNum → Bool
  | nan, _ => false
  | _, nan => false
  | negInf, _ => true
  | _, negInf => false
  | posInf, posInf => true
  | num _, posInf => true
  | posInf, num _ => false
  | num a, num b => decide (a ≤ b)

/-- The JavaScript `<` comparison: false whenever either side is `NaN`. -/
def jsLt : JSNum → JSNum → Bool
  | nan, _ => false
  | _, nan => false
  | negInf, negInf => false
  | negInf, _ => true
  | _, negInf => false
  | posInf, _ => false
  | num _, posInf => true
  | num a, num b => decide (a < b)

/-- A finite JavaScript number. -/
def isFinite : JSNum → Prop
  | num _ => True
  | _ => False

/-- The rational value of a finite `JSNum` (0 on the non-finite values;
only ever applied to finite ones). -/
def ratOf : JSNum → ℚ
  | num q => q
  | _ => 0

end JSNum

open JSNum

/-- Structure `ArticlePricingDiscountData` from `src/types.ts`: a `(minimumQuantity,
discountPercentage)` discount tier, both raw JavaScript numbers. -/
structure ArticlePricingDiscountData where
  minimumQuantity : JSNum
  discountPercentage : JSNum
deriving DecidableEq

/-- Structure `ArticlePricingData` from `src/types.ts`: a base price in cents plus an
optional list of discount tiers.  The optional `discounts?` field is
modelled with `Option`. -/
structure ArticlePricingData where
  price : JSNum
  discounts : Option (List ArticlePricingDiscountData) := none
deriving DecidableEq

/-- The `Required<ArticlePricingData>` shape: the normalized result of
`validateArticlePricing`, in which `discounts` is always present. -/
structure RequiredArticlePricingData where
  price : JSNum
  discounts : List ArticlePricingDiscountData
deriving DecidableEq

/-- The price rejection condition of `validateArticlePricing`
(`src/validators.ts` line 52):
`Number.isNaN(price) || !Number.isInteger(price) || price <= 0`. -/
def priceBad (price : JSNum) : Bool :=
  price.isNaN || !price.isInteger || jsLe price (.num 0)

/-- The `minimumQuantity` rejection condition (`src/validators.ts` lines
66–70): `Number.isNaN(minimumQuantity) || !Number.isInteger(minimumQuantity)
|| minimumQuantity < 2`. -/
def minQuantityBad (d : ArticlePricingDiscountData) : Bool :=
  d.minimumQuantity.isNaN || !d.minimumQuantity.isInteger ||
    jsLt d.minimumQuantity (.num 2)

/-- The `discountPercentage` rejection condition (`src/validators.ts`
lines 76–80): `Number.isNaN(discountPercentage) || discountPercentage <= 0
|| discountPercentage >= 100`. -/
def percentageBad (d : ArticlePricingDiscountData) : Bool :=
  d.discountPercentage.isNaN || jsLe d.discountPercentage (.num 0) ||
    jsLe (.num 100) d.discountPercentage

/-- A tier violating either per-field check. -/
def tierBad (d : ArticlePricingDiscountData) : Bool :=
  minQuantityBad d || percentageBad d

/-- The error message a bad tier produces: the `minimumQuantity` check
runs before the `discountPercentage` check. -/
def tierErrorMsg (d : ArticlePricingDiscountData) : String :=
  if minQuantityBad d then
    "Minimum quantity must be an integer greater than or equal to 2."
  else
    "Discount percentage must be a number greater than 0 and less than 100."

/-- The per-tier field validation loop of `validateArticlePricing`
(`src/validators.ts` lines 63–89): checks `minimumQuantity` then
`discountPercentage` of each tier in input order, failing fast with the
first violated rule; on success it returns the accumulated working list
(`data.discounts`), which is the input list itself. -/
def validateDiscountFields :
    List ArticlePricingDiscountData →
    Except String (List ArticlePricingDiscountData)
  | [] => .ok []
  | d :: rest =>
    if minQuantityBad d then
      .error "Minimum quantity must be an integer greater than or equal to 2."
    else if percentageBad d then
      .error "Discount percentage must be a number greater than 0 and less than 100."
    else
      match validateDiscountFields rest with
      | .error e => .error e
      | .ok tiers => .ok (⟨d.minimumQuantity, d.discountPercentage⟩ :: tiers)

/-- The sort comparator of `validateArticlePricing`
(`data.discounts.sort((a, b) => a.minimumQuantity - b.minimumQuantity)`).
Every tier reaching the sort has already passed the per-field checks, so
both `minimumQuantity` values are finite integers; the comparator is
modelled on those rational values (`ratOf` is never applied to a
non-finite value here). -/
def tierLe (a b : ArticlePricingDiscountData) : Bool :=
  decide (ratOf a.minimumQuantity ≤ ratOf b.minimumQuantity)

/-- Insert a tier into a list sorted by `tierLe`, keeping it sorted. -/
def insertTier (d : ArticlePricingDiscountData) :
    List ArticlePricingDiscountData → List ArticlePricingDiscountData
  | [] => [d]
  | e :: rest => if tierLe d e then d :: e :: rest else e :: insertTier d rest

/-- Sorting step of `validateArticlePricing` (`src/validators.ts` line 95):
sort the working list ascending by `minimumQuantity`.  Modelled as an
insertion sort; when the sort runs, the duplicate-threshold check has
already ensured the keys are pairwise distinct, so every comparison sort
produces this same unique ascending arrangement. -/
def sortDiscounts : List ArticlePricingDiscountData →
    List ArticlePricingDiscountData
  | [] => []
  | d :: rest => insertTier d (sortDiscounts rest)

/-- The final monotonicity walk of `validateArticlePricing`
(`src/validators.ts` lines 96–104): each sorted tier
must have a `discountPercentage` exceeding that of the previous one, the first being
compared against 0 (`prevPct`). -/
def checkMonotonic (prevPct : JSNum) :
    List ArticlePricingDiscountData → Except String Unit
  | [] => .ok ()
  | d :: rest =>
    if jsLe d.discountPercentage prevPct then
      .error "Each tier discount percentage must be greater than the previous tier\x27s discount."
    else checkMonotonic d.discountPercentage rest

/-- Function `validateArticlePricing` from `src/validators.ts` (lines 48–106):
validates the price, the fields of each tier, uniqueness of the quantity
thresholds (`new Set(quantities).size !== quantities.length` — modelled
with `List.dedup`, which agrees with the SameValueZero
semantics of the JavaScript `Set` on the values reaching this point), sorts the tiers by
`minimumQuantity`, checks strict monotonicity of the percentages, and
returns the normalized data. -/
def validateArticlePricing (pricing : ArticlePricingData) :
    Except String RequiredArticlePricingData :=
  if priceBad pricing.price then
    .error "Price must be an integer greater than 0."
  else
    let rawDiscounts := pricing.discounts.getD []
    match validateDiscountFields rawDiscounts with
    | .error e => .error e
    | .ok tiers =>
      let quantities := tiers.map (·.minimumQuantity)
      if quantities.dedup.length ≠ quantities.length then
        .error "Discount quantities must be unique."
      else
        let sorted := sortDiscounts tiers
        match checkMonotonic (.num 0) sorted with
        | .error e => .error e
        | .ok _ => .ok ⟨pricing.price, sorted⟩

/-!
## The URL model

`validateArticlePermalink` delegates parsing and canonical re-serialization
to the WHATWG `URL` class of the host platform, which is not part of the
repository.
-/

/-- Modelled from the spec: ASCII lowercasing, the host-name normalization
of the platform URL parser that spec section 4.1 delegates to (the `URL`
class is a platform primitive, not repository code). -/
def lowerChar (c : Char) : Char :=
  match c with
  | 'A' => 'a' | 'B' => 'b' | 'C' => 'c' | 'D' => 'd' | 'E' => 'e'
  | 'F' => 'f' | 'G' => 'g' | 'H' => 'h' | 'I' => 'i' | 'J' => 'j'
  | 'K' => 'k' | 'L' => 'l' | 'M' => 'm' | 'N' => 'n' | 'O' => 'o'
  | 'P' => 'p' | 'Q' => 'q' | 'R' => 'r' | 'S' => 's' | 'T' => 't'
  | 'U' => 'u' | 'V' => 'v' | 'W' => 'w' | 'X' => 'x' | 'Y' => 'y'
  | 'Z' => 'z'
  | other => other

/-- Split a list at the first occurrence of `d`, returning the parts
before and after it; `none` when `d` does not occur. -/
def splitFirst (d : Char) : List Char → Option (List Char × List Char)
  | [] => none
  | c :: cs =>
    if c = d then some ([], cs)
    else
      match splitFirst d cs with
      | some (l, r) => some (c :: l, r)
      | none => none

/-- Split a list at the last occurrence of `d`, returning the parts
before and after it; `none` when `d` does not occur. -/
def splitLast (d : Char) : List Char → Option (List Char × List Char)
  | [] => none
  | c :: cs =>
    match splitLast d cs with
    | some (l, r) => some (c :: l, r)
    | none => if c = d then some ([], cs) else none

/-- Modelled from the spec: WHATWG port parsing for an `https` URL.  An
empty port (`https://h:/`) is treated as no port; a non-numeric or
out-of-range port is a parse failure; the default secure port 443 is
elided (spec section 4.1: "default-port elision").  Result: `none` =
parse failure, `some none` = no port, `some (some n)` = explicit
non-default port `n`. -/
def parsePort (p : List Char) : Option (Option Nat) :=
  if p.isEmpty then some none
  else if p.all Char.isDigit then
    let n := p.foldl (fun acc c => acc * 10 + (c.toNat - 48)) 0
    if n > 65535 then none
    else if n = 443 then some none
    else some (some n)
  else none

/-- A character terminating the authority component. -/
def isAuthorityEnd (c : Char) : Bool := c = '/' || c = '?' || c = '#'

/-- A scheme character (first must additionally be alphabetic). -/
def isSchemeChar (c : Char) : Bool :=
  c.isAlphanum || c = '+' || c = '-' || c = '.'

/-- A parsed URL record: the components of the platform `URL` object. -/
structure URLRec where
  scheme : List Char
  username : List Char
  password : List Char
  host : List Char
  port : Option Nat
  pathname : List Char
  query : Option (List Char)
  fragment : Option (List Char)
deriving DecidableEq

/-- Modelled from the spec: scheme extraction of the WHATWG URL parser.
A scheme is a leading alphabetic character followed by scheme characters
and terminated by `:`; it is lowercased.  Returns the scheme and the
remainder after the colon, or `none` when the input has no scheme. -/
def parseSchemeParts (cs : List Char) : Option (List Char × List Char) :=
  match cs with
  | [] => none
  | c :: _ =>
    if c.isAlpha then
      match cs.dropWhile isSchemeChar with
      | ':' :: rest => some ((cs.takeWhile isSchemeChar).map lowerChar, rest)
      | _ => none
    else none

/-- Authority parsing of the WHATWG parser: the part between `://` and
the first `/`, `?` or `#` is split at its last `@` into userinfo and
host-port; the userinfo splits at its first `:` into username and
password; the host-port splits at its first `:` into host and port.  An
empty host or an invalid port is a parse failure; the host is
lowercased; the port is normalized by `parsePort`. -/
def parseAuthority (authority : List Char) :
    Option (List Char × List Char × List Char × Option Nat) :=
  let (userinfo, hostport) :=
    match splitLast '@' authority with
    | some (u, h) => (some u, h)
    | none => (none, authority)
  let (username, password) :=
    match userinfo with
    | none => ([], [])
    | some ui =>
      match splitFirst ':' ui with
      | some (u, pw) => (u, pw)
      | none => (ui, [])
  let (hostPart, portPart) :=
    match splitFirst ':' hostport with
    | some (h, p) => (h, some p)
    | none => (hostport, none)
  if hostPart.isEmpty then none
  else
    match (match portPart with | none => some none | some p => parsePort p) with
    | none => none
    | some port => some (username, password, hostPart.map lowerChar, port)

/-- Path, query and fragment extraction from the input remainder that
follows the authority (a list that is empty or starts with `/`, `?` or
`#`): the path runs to the first `?` or `#` and an empty path is
normalized to `/`; a `?` starts the query, which runs to the first `#`;
a `#` starts the fragment. -/
def parsePathQueryFragment (afterAuthority : List Char) :
    List Char × Option (List Char) × Option (List Char) :=
  let pathRaw := afterAuthority.takeWhile (fun c => !(c = '?' || c = '#'))
  let afterPath := afterAuthority.dropWhile (fun c => !(c = '?' || c = '#'))
  let pathname := if pathRaw.isEmpty then ['/'] else pathRaw
  let (query, afterQuery) :=
    match afterPath with
    | '?' :: t =>
      (some (t.takeWhile (fun c => !(c = '#'))),
       t.dropWhile (fun c => !(c = '#')))
    | _ => (none, afterPath)
  let fragment :=
    match afterQuery with
    | '#' :: t => some t
    | _ => none
  (pathname, query, fragment)

/-- The post-scheme stage of the URL parser: `rest` is the input after
the scheme colon with all leading slashes dropped (the special
authority slashes state).  The authority runs to the first `/`, `?` or
`#`; the remainder yields path, query and fragment. -/
def parseURLAux (scheme rest : List Char) : Option URLRec :=
  let authority := rest.takeWhile (fun c => !isAuthorityEnd c)
  let afterAuthority := rest.dropWhile (fun c => !isAuthorityEnd c)
  match parseAuthority authority with
  | none => none
  | some (username, password, host, port) =>
    let (pathname, query, fragment) := parsePathQueryFragment afterAuthority
    some ⟨scheme, username, password, host, port, pathname, query, fragment⟩

/-- Modelled from the spec: the WHATWG URL parser (`new URL(input)`), a
platform primitive called by the validator in the repository; spec section
4.1 intentionally delegates parsing to it.  The model covers the
behavior the validator depends on: scheme extraction and lowercasing,
authority splitting into credentials / host / port, host lowercasing,
default-port elision (443), empty-path normalization to `/`, and query
and fragment extraction.  Simplifications (irrelevant to the validated
inputs): percent-encoding and IDNA host normalization, dot-segment
removal, and backslash-as-slash are not modelled, and every scheme is
parsed with the special-scheme (authority-based) grammar. -/
def parseURL (cs : List Char) : Option URLRec :=
  match parseSchemeParts cs with
  | none => none
  | some (scheme, afterScheme) =>
    parseURLAux scheme (afterScheme.dropWhile (fun c => c = '/'))

/-- The serialized query component: nothing when the query is absent,
otherwise `?` followed by the (possibly empty) query. -/
def queryTail : Option (List Char) → List Char
  | none => []
  | some q => '?' :: q

/-- The serialized fragment component: nothing when the fragment is
absent, otherwise `#` followed by the (possibly empty) fragment. -/
def fragmentTail : Option (List Char) → List Char
  | none => []
  | some f => '#' :: f

/-- Modelled from the spec: the WHATWG URL serializer (`url.toString()`),
producing the canonical string of a parsed URL: scheme, `://`,
credentials when present, host, explicit port when present, path, query
when present (a `?` is kept even for an empty query), fragment when
present (likewise for `#`). -/
def URLRec.href (u : URLRec) : List Char :=
  u.scheme ++ [':', '/', '/'] ++
  (if u.username.isEmpty && u.password.isEmpty then []
   else u.username ++ (if u.password.isEmpty then [] else ':' :: u.password) ++ ['@']) ++
  u.host ++
  (match u.port with | none => [] | some n => ':' :: Nat.toDigits 10 n) ++
  u.pathname ++
  queryTail u.query ++
  fragmentTail u.fragment

/-- The `url.protocol` getter: the scheme followed by `:`. -/
def URLRec.protocol (u : URLRec) : List Char := u.scheme ++ [':']

/-- The `url.search` getter: empty when the query is absent or empty,
otherwise `?` followed by the query. -/
def URLRec.search (u : URLRec) : List Char :=
  match u.query with
  | some (c :: cs) => '?' :: c :: cs
  | _ => []

/-- The `url.hash` getter: empty when the fragment is absent or empty,
otherwise `#` followed by the fragment. -/
def URLRec.hash (u : URLRec) : List Char :=
  match u.fragment with
  | some (c :: cs) => '#' :: c :: cs
  | _ => []

/-- The `url.port` getter: the port digits, or empty when no explicit
non-default port is recorded. -/
def URLRec.portString (u : URLRec) : List Char :=
  match u.port with
  | none => []
  | some n => Nat.toDigits 10 n

/-- Function `validateArticlePermalink` from `src/validators.ts` (lines 12–36):
parse the permalink with the platform URL parser (failure ⇒ "Permalink is
not valid."), then reject a non-`https:` protocol, a non-empty query
string, an explicit port, a non-empty hash fragment, and credentials, in
that order; on success return the canonical serialized URL. -/
def validateArticlePermalink (permalink : String) : Except String String :=
  match parseURL permalink.data with
  | none => .error "Permalink is not valid."
  | some url =>
    if url.protocol ≠ "https:".data then
      .error "Permalink must use \x22https://\x22"
    else if url.search ≠ [] then
      .error "Permalink must not contain any query parameters"
    else if url.portString ≠ [] then
      .error "Permalink must not contain a port"
    else if url.hash ≠ [] then
      .error "Permalink must not contain a hash fragment"
    else if url.password ≠ [] ∨ url.username ≠ [] then
      .error "Permalink must not contain a user/password"
    else .ok (String.mk url.href)

/-- Structure `ArticlePurchaseUrlPayload`: the plaintext payload handed to the
external token signer.  Key presence is significant, so the two optional
keys are modelled with `Option` (`none` = key absent). -/
structure ArticlePurchaseUrlPayload where
  permalink : String
  customPricing : Option RequiredArticlePricingData := none
  showSharingContext : Option Bool := none
deriving DecidableEq

/-- The payload-building prefix of
`PublicationSDK.createArticlePurchaseUrl` (the SDK variant that routes
its arguments through the validators): validate the permalink, then, when
`customPricing` is supplied, validate it and store the normalized result,
and set `showSharingContext` to `true` exactly when the caller passed
`true` (`showSharingContext === true`).  The subsequent token signing and
URL concatenation are the external signer capability, out of the
validation core. -/
def createArticlePurchaseUrlPayload (permalink : String)
    (customPricing : Option ArticlePricingData)
    (showSharingContext : Option Bool) :
    Except String ArticlePurchaseUrlPayload :=
  match validateArticlePermalink permalink with
  | .error e => .error e
  | .ok p =>
    match customPricing with
    | none =>
      .ok { permalink := p,
            customPricing := none,
            showSharingContext :=
              if showSharingContext = some true then some true else none }
    | some cp =>
      match validateArticlePricing cp with
      | .error e => .error e
      | .ok v =>
        .ok { permalink := p,
              customPricing := some v,
              showSharingContext :=
                if showSharingContext = some true then some true else none }

/-- The lowercase ASCII letters: the image of `lowerChar` on uppercase
letters. -/
def lowercaseLetters : List Char :=
  ['a', 'b', 'c', 'd', 'e', 'f', 'g', 'h', 'i', 'j', 'k', 'l', 'm',
   'n', 'o', 'p', 'q', 'r', 's', 't', 'u', 'v', 'w', 'x', 'y', 'z']

/-!
## Pricing validator lemmas
-/

/-- Declarative form of the monotonicity walk: starting from `prevPct`,
each successive `discountPercentage` passes the `<=` rejection test
of the walk (`discountPercentage <= prevPct` is false). -/
def dpRises (prevPct : JSNum) (l : List ArticlePricingDiscountData) : Prop :=
  List.Chain (fun a b => jsLe b a = false) prevPct
    (l.map (·.discountPercentage))

theorem isInteger_iff {j : JSNum} :
    j.isInteger = true ↔ ∃ q : ℚ, j = num q ∧ q.den = 1 := by
  cases j <;> simp [JSNum.isInteger]

theorem minQuantityBad_false_num {d : ArticlePricingDiscountData}
    (h : minQuantityBad d = false) :
    ∃ q : ℚ, d.minimumQuantity = num q ∧ q.den = 1 ∧ 2 ≤ q := by
  rcases hd : d.minimumQuantity with _ | _ | _ | q <;>
    simp [minQuantityBad, hd, JSNum.isNaN, JSNum.isInteger, jsLt] at h
  exact ⟨q, rfl, h.1, h.2⟩

theorem percentageBad_false_num {d : ArticlePricingDiscountData}
    (h : percentageBad d = false) :
    ∃ q : ℚ, d.discountPercentage = num q ∧ 0 < q ∧ q < 100 := by
  rcases hd : d.discountPercentage with _ | _ | _ | q <;>
    simp [percentageBad, hd, JSNum.isNaN, jsLe] at h
  exact ⟨q, rfl, h.1, h.2⟩

theorem tierBad_false_iff {d : ArticlePricingDiscountData} :
    tierBad d = false ↔ minQuantityBad d = false ∧ percentageBad d = false := by
  simp [tierBad]

theorem tier_eta (d : ArticlePricingDiscountData) :
    (⟨d.minimumQuantity, d.discountPercentage⟩ :
      ArticlePricingDiscountData) = d := rfl

theorem validateDiscountFields_ok_iff {l l' : List ArticlePricingDiscountData} :
    validateDiscountFields l = .ok l' ↔
      l' = l ∧ ∀ d ∈ l, tierBad d = false := by
  induction l generalizing l' with
  | nil =>
    simp only [validateDiscountFields, Except.ok.injEq]
    constructor
    · rintro rfl; exact ⟨rfl, by simp⟩
    · rintro ⟨rfl, -⟩; rfl
  | cons d rest ih =>
    by_cases h1 : minQuantityBad d
    · simp [validateDiscountFields, h1, tierBad]
    · by_cases h2 : percentageBad d
      · simp [validateDiscountFields, h1, h2, tierBad]
      · cases hrec : validateDiscountFields rest with
        | error e =>
          simp only [validateDiscountFields, h1, h2, if_false, hrec,
            Bool.false_eq_true]
          constructor
          · intro h; cases h
          · rintro ⟨rfl, hall⟩
            have hok : validateDiscountFields rest = .ok rest :=
              ih.mpr ⟨rfl, fun x hx => hall x (List.mem_cons_of_mem _ hx)⟩
            rw [hok] at hrec; cases hrec
        | ok tiers =>
          rcases ih.mp hrec with ⟨rfl, hall⟩
          simp only [validateDiscountFields, h1, h2, if_false, hrec,
            tier_eta, Except.ok.injEq, Bool.false_eq_true]
          constructor
          · rintro rfl
            refine ⟨rfl, fun x hx => ?_⟩
            rcases List.mem_cons.mp hx with rfl | hx
            · simp [tierBad, h1, h2]
            · exact hall x hx
          · rintro ⟨rfl, -⟩; rfl

theorem validateDiscountFields_error_iff {l : List ArticlePricingDiscountData}
    {e : String} :
    validateDiscountFields l = .error e ↔
      ∃ pre d post, l = pre ++ d :: post ∧
        (∀ x ∈ pre, tierBad x = false) ∧ tierBad d = true ∧
        e = tierErrorMsg d := by
  induction l with
  | nil =>
    simp only [validateDiscountFields]
    constructor
    · intro h; cases h
    · rintro ⟨pre, d, post, h, -⟩; cases pre <;> cases h
  | cons hd rest ih =>
    constructor
    · intro h
      by_cases h1 : minQuantityBad hd
      · refine ⟨[], hd, rest, rfl, by simp, by simp [tierBad, h1], ?_⟩
        simp only [validateDiscountFields, h1, if_true] at h
        injection h with h
        simp [← h, tierErrorMsg, h1]
      · by_cases h2 : percentageBad hd
        · refine ⟨[], hd, rest, rfl, by simp, by simp [tierBad, h2], ?_⟩
          simp only [validateDiscountFields, h1, h2, if_true, if_false,
            Bool.false_eq_true] at h
          injection h with h
          simp [← h, tierErrorMsg, h1]
        · simp only [validateDiscountFields, h1, h2, if_false,
            Bool.false_eq_true] at h
          cases hrec : validateDiscountFields rest with
          | error e' =>
            rw [hrec] at h
            injection h with h
            subst h
            rcases ih.mp hrec with ⟨pre, d, post, hrest, hpre, hbad, hmsg⟩
            refine ⟨hd :: pre, d, post, by rw [hrest, List.cons_append], ?_, hbad, hmsg⟩
            intro x hx
            rcases List.mem_cons.mp hx with rfl | hx
            · simp [tierBad, h1, h2]
            · exact hpre x hx
          | ok tiers => rw [hrec] at h; cases h
    · rintro ⟨pre, d, post, hl, hpre, hbad, hmsg⟩
      cases pre with
      | nil =>
        simp only [List.nil_append] at hl
        injection hl with hhd hrest
        subst hhd; subst hrest; subst hmsg
        by_cases hm : minQuantityBad hd
        · simp [validateDiscountFields, hm, tierErrorMsg]
        · have hp : percentageBad hd = true := by
            rcases (Bool.or_eq_true _ _).mp (by simpa [tierBad] using hbad)
              with hx | hx
            · exact absurd hx hm
            · exact hx
          simp [validateDiscountFields, hm, hp, tierErrorMsg]
      | cons x pre' =>
        simp only [List.cons_append] at hl
        injection hl with hhd hrest
        subst hhd
        have hx : tierBad hd = false := hpre hd (List.mem_cons_self hd pre')
        have h1 : minQuantityBad hd = false := (tierBad_false_iff.mp hx).1
        have h2 : percentageBad hd = false := (tierBad_false_iff.mp hx).2
        have hrec : validateDiscountFields rest = .error e :=
          ih.mpr ⟨pre', d, post, hrest, fun y hy =>
            hpre y (List.mem_cons_of_mem _ hy), hbad, hmsg⟩
        simp [validateDiscountFields, h1, h2, hrec]

theorem tierLe_total (a b : ArticlePricingDiscountData) :
    tierLe a b = true ∨ tierLe b a = true := by
  simp only [tierLe, decide_eq_true_eq]
  exact le_total _ _

theorem tierLe_trans {a b c : ArticlePricingDiscountData}
    (hab : tierLe a b = true) (hbc : tierLe b c = true) :
    tierLe a c = true := by
  simp only [tierLe, decide_eq_true_eq] at *
  exact le_trans hab hbc

theorem mem_insertTier {x d : ArticlePricingDiscountData}
    {l : List ArticlePricingDiscountData} :
    x ∈ insertTier d l ↔ x = d ∨ x ∈ l := by
  induction l with
  | nil => simp [insertTier]
  | cons e rest ih =>
    by_cases h : tierLe d e
    · simp [insertTier, h]
    · simp [insertTier, h, ih]
      tauto

theorem insertTier_perm (d : ArticlePricingDiscountData)
    (l : List ArticlePricingDiscountData) :
    List.Perm (insertTier d l) (d :: l) := by
  induction l with
  | nil => exact List.Perm.refl _
  | cons e rest ih =>
    by_cases h : tierLe d e
    · simp [insertTier, h]
    · simp only [insertTier, h, if_false, Bool.false_eq_true]
      exact (ih.cons e).trans (List.Perm.swap d e rest)

theorem sortDiscounts_perm (l : List ArticlePricingDiscountData) :
    List.Perm (sortDiscounts l) l := by
  induction l with
  | nil => exact List.Perm.refl _
  | cons d rest ih =>
    exact (insertTier_perm d (sortDiscounts rest)).trans (ih.cons d)

theorem pairwise_insertTier {d : ArticlePricingDiscountData}
    {l : List ArticlePricingDiscountData}
    (h : l.Pairwise (fun a b => tierLe a b = true)) :
    (insertTier d l).Pairwise (fun a b => tierLe a b = true) := by
  induction l with
  | nil => simp [insertTier]
  | cons e rest ih =>
    rcases List.pairwise_cons.mp h with ⟨he, hr⟩
    by_cases hde : tierLe d e
    · simp only [insertTier, hde, if_true]
      refine List.pairwise_cons.mpr ⟨?_, h⟩
      intro x hx
      rcases List.mem_cons.mp hx with rfl | hx
      · exact hde
      · exact tierLe_trans hde (he x hx)
    · have hed : tierLe e d = true := (tierLe_total d e).resolve_left hde
      simp only [insertTier, hde, if_false, Bool.false_eq_true]
      refine List.pairwise_cons.mpr ⟨?_, ih hr⟩
      intro x hx
      rcases mem_insertTier.mp hx with rfl | hx
      · exact hed
      · exact he x hx

theorem sortDiscounts_sorted (l : List ArticlePricingDiscountData) :
    (sortDiscounts l).Pairwise (fun a b => tierLe a b = true) := by
  induction l with
  | nil => simp [sortDiscounts]
  | cons d rest ih => exact pairwise_insertTier ih

theorem checkMonotonic_ok_iff {prevPct : JSNum}
    {l : List ArticlePricingDiscountData} :
    checkMonotonic prevPct l = .ok () ↔ dpRises prevPct l := by
  induction l generalizing prevPct with
  | nil => simp [checkMonotonic, dpRises]
  | cons d rest ih =>
    by_cases h : jsLe d.discountPercentage prevPct
    · simp [checkMonotonic, h, dpRises]
    · have h' : jsLe d.discountPercentage prevPct = false :=
        eq_false_of_ne_true h
      simp [checkMonotonic, h', ih, dpRises, List.chain_cons]

theorem checkMonotonic_result (prevPct : JSNum)
    (l : List ArticlePricingDiscountData) :
    checkMonotonic prevPct l = .ok () ∨
      checkMonotonic prevPct l =
        .error "Each tier discount percentage must be greater than the previous tier\x27s discount." := by
  induction l generalizing prevPct with
  | nil => exact Or.inl rfl
  | cons d rest ih =>
    by_cases h : jsLe d.discountPercentage prevPct
    · exact Or.inr (by simp [checkMonotonic, h])
    · simpa [checkMonotonic, h] using ih d.discountPercentage

theorem checkMonotonic_error_iff {prevPct : JSNum}
    {l : List ArticlePricingDiscountData} {e : String} :
    checkMonotonic prevPct l = .error e ↔
      ¬ dpRises prevPct l ∧
        e = "Each tier discount percentage must be greater than the previous tier\x27s discount." := by
  constructor
  · intro h
    rcases checkMonotonic_result prevPct l with hok | herr
    · rw [hok] at h; cases h
    · rw [herr] at h
      injection h with h
      refine ⟨?_, h.symm⟩
      intro hr
      have := checkMonotonic_ok_iff.mpr hr
      rw [this] at herr; cases herr
  · rintro ⟨hnr, rfl⟩
    rcases checkMonotonic_result prevPct l with hok | herr
    · exact absurd (checkMonotonic_ok_iff.mp hok) hnr
    · exact herr

theorem dedup_length_eq_iff {l : List JSNum} :
    l.dedup.length = l.length ↔ l.Nodup := by
  constructor
  · intro h
    have := (List.dedup_sublist l).eq_of_length h
    rw [← this]
    exact List.nodup_dedup l
  · intro h
    rw [h.dedup]

theorem validateArticlePricing_ok_char {p : ArticlePricingData}
    {r : RequiredArticlePricingData} :
    validateArticlePricing p = .ok r ↔
      priceBad p.price = false ∧
      (∀ d ∈ p.discounts.getD [], tierBad d = false) ∧
      (List.map (fun d => d.minimumQuantity) (p.discounts.getD [])).Nodup ∧
      dpRises (.num 0) (sortDiscounts (p.discounts.getD [])) ∧
      r = ⟨p.price, sortDiscounts (p.discounts.getD [])⟩ := by
  by_cases hp : priceBad p.price
  · simp [validateArticlePricing, hp]
  · have hp' : priceBad p.price = false := eq_false_of_ne_true hp
    cases hv : validateDiscountFields (p.discounts.getD []) with
    | error e0 =>
      simp only [validateArticlePricing, hp', if_false, Bool.false_eq_true, hv]
      rcases validateDiscountFields_error_iff.mp hv with
        ⟨pre, d, post, hsplit, -, hbad, -⟩
      constructor
      · intro h; cases h
      · rintro ⟨-, hall, -⟩
        have hd : d ∈ p.discounts.getD [] := by
          rw [hsplit]
          exact List.mem_append.mpr (Or.inr (List.mem_cons_self _ _))
        rw [hall d hd] at hbad; cases hbad
    | ok tiers =>
      rcases validateDiscountFields_ok_iff.mp hv with ⟨rfl, hall⟩
      simp only [validateArticlePricing, hp', if_false, Bool.false_eq_true, hv]
      by_cases hnd : (List.map (fun d => d.minimumQuantity)
          (p.discounts.getD [])).Nodup
      · have hdl : ((p.discounts.getD []).map
            (fun d => d.minimumQuantity)).dedup.length =
            ((p.discounts.getD []).map (fun d => d.minimumQuantity)).length :=
          dedup_length_eq_iff.mpr hnd
        cases hm : checkMonotonic (.num 0)
            (sortDiscounts (p.discounts.getD [])) with
        | error e1 =>
          have hnr := (checkMonotonic_error_iff.mp hm).1
          simp only [hdl, ne_eq, not_true_eq_false, if_false, hm,
            Bool.false_eq_true]
          constructor
          · intro h; cases h
          · rintro ⟨-, -, -, hr, -⟩; exact absurd hr hnr
        | ok u =>
          cases u
          have hr := checkMonotonic_ok_iff.mp hm
          simp only [hdl, ne_eq, not_true_eq_false, if_false, hm,
            Bool.false_eq_true, Except.ok.injEq]
          constructor
          · rintro rfl; exact ⟨trivial, hall, hnd, hr, rfl⟩
          · rintro ⟨-, -, -, -, rfl⟩; rfl
      · have hdl : ((p.discounts.getD []).map
            (fun d => d.minimumQuantity)).dedup.length ≠
            ((p.discounts.getD []).map (fun d => d.minimumQuantity)).length :=
          fun h => hnd (dedup_length_eq_iff.mp h)
        simp only [hdl, ne_eq, not_false_eq_true, if_true]
        constructor
        · intro h; cases h
        · rintro ⟨-, -, hnd2, -⟩; exact absurd hnd2 hnd

theorem validateArticlePricing_error_char {p : ArticlePricingData}
    {e : String} :
    validateArticlePricing p = .error e ↔
      (priceBad p.price = true ∧
        e = "Price must be an integer greater than 0.") ∨
      (priceBad p.price = false ∧
        ∃ pre d post, p.discounts.getD [] = pre ++ d :: post ∧
          (∀ x ∈ pre, tierBad x = false) ∧ tierBad d = true ∧
          e = tierErrorMsg d) ∨
      (priceBad p.price = false ∧
        (∀ d ∈ p.discounts.getD [], tierBad d = false) ∧
        ¬ (List.map (fun d => d.minimumQuantity) (p.discounts.getD [])).Nodup ∧
        e = "Discount quantities must be unique.") ∨
      (priceBad p.price = false ∧
        (∀ d ∈ p.discounts.getD [], tierBad d = false) ∧
        (List.map (fun d => d.minimumQuantity) (p.discounts.getD [])).Nodup ∧
        ¬ dpRises (.num 0) (sortDiscounts (p.discounts.getD [])) ∧
        e = "Each tier discount percentage must be greater than the previous tier\x27s discount.") := by
  by_cases hp : priceBad p.price
  · constructor
    · intro h
      simp only [validateArticlePricing, hp, if_true] at h
      injection h with h
      exact Or.inl ⟨hp, h.symm⟩
    · rintro (⟨-, rfl⟩ | ⟨hfalse, -⟩ | ⟨hfalse, -, -, -⟩ | ⟨hfalse, -, -, -, -⟩)
      · simp [validateArticlePricing, hp]
      all_goals (rw [hp] at hfalse; exact absurd hfalse (by decide))
  · have hp' : priceBad p.price = false := eq_false_of_ne_true hp
    cases hv : validateDiscountFields (p.discounts.getD []) with
    | error e0 =>
      simp only [validateArticlePricing, hp', if_false, Bool.false_eq_true, hv]
      rcases validateDiscountFields_error_iff.mp hv with
        ⟨pre, d, post, hsplit, hpre, hbad, hmsg⟩
      constructor
      · intro h
        injection h with h
        subst h
        exact Or.inr (Or.inl ⟨trivial, pre, d, post, hsplit, hpre, hbad, hmsg⟩)
      · rintro (⟨hbadp, -⟩ | ⟨-, pre', d', post', hsplit', hpre', hbad', hmsg'⟩ |
          ⟨-, hall, -⟩ | ⟨-, hall, -⟩)
        · exact hbadp.elim
        · have : validateDiscountFields (p.discounts.getD []) = .error e :=
            validateDiscountFields_error_iff.mpr
              ⟨pre', d', post', hsplit', hpre', hbad', hmsg'⟩
          rw [this] at hv
          injection hv with hv
          rw [hv]
        · have hd : d ∈ p.discounts.getD [] := by
            rw [hsplit]
            exact List.mem_append.mpr (Or.inr (List.mem_cons_self _ _))
          rw [hall d hd] at hbad; cases hbad
        · have hd : d ∈ p.discounts.getD [] := by
            rw [hsplit]
            exact List.mem_append.mpr (Or.inr (List.mem_cons_self _ _))
          rw [hall d hd] at hbad; cases hbad
    | ok tiers =>
      rcases validateDiscountFields_ok_iff.mp hv with ⟨rfl, hall⟩
      simp only [validateArticlePricing, hp', if_false, Bool.false_eq_true, hv]
      have hnobad : ∀ pre d post,
          p.discounts.getD [] = pre ++ d :: post → tierBad d = true → False := by
        intro pre d post hsplit hbad
        have hd : d ∈ p.discounts.getD [] := by
          rw [hsplit]
          exact List.mem_append.mpr (Or.inr (List.mem_cons_self _ _))
        rw [hall d hd] at hbad; cases hbad
      by_cases hnd : (List.map (fun d => d.minimumQuantity)
          (p.discounts.getD [])).Nodup
      · have hdl : ((p.discounts.getD []).map
            (fun d => d.minimumQuantity)).dedup.length =
            ((p.discounts.getD []).map (fun d => d.minimumQuantity)).length :=
          dedup_length_eq_iff.mpr hnd
        cases hm : checkMonotonic (.num 0)
            (sortDiscounts (p.discounts.getD [])) with
        | error e1 =>
          rcases checkMonotonic_error_iff.mp hm with ⟨hnr, rfl⟩
          simp only [hdl, ne_eq, not_true_eq_false, if_false, hm,
            Bool.false_eq_true]
          constructor
          · intro h
            injection h with h
            subst h
            exact Or.inr (Or.inr (Or.inr ⟨trivial, hall, hnd, hnr, rfl⟩))
          · rintro (⟨hbadp, -⟩ | ⟨-, pre', d', post', hsplit', -, hbad', -⟩ |
              ⟨-, -, hnd', -⟩ | ⟨-, -, -, -, rfl⟩)
            · exact hbadp.elim
            · exact absurd hbad' (by
                intro hb; exact hnobad pre' d' post' hsplit' hb)
            · exact absurd hnd hnd'
            · rfl
        | ok u =>
          cases u
          have hr := checkMonotonic_ok_iff.mp hm
          simp only [hdl, ne_eq, not_true_eq_false, if_false, hm,
            Bool.false_eq_true]
          constructor
          · intro h; cases h
          · rintro (⟨hbadp, -⟩ | ⟨-, pre', d', post', hsplit', -, hbad', -⟩ |
              ⟨-, -, hnd', -⟩ | ⟨-, -, -, hnr, -⟩)
            · exact hbadp.elim
            · exact absurd hbad' (by
                intro hb; exact hnobad pre' d' post' hsplit' hb)
            · exact absurd hnd hnd'
            · exact absurd hr hnr
      · have hdl : ((p.discounts.getD []).map
            (fun d => d.minimumQuantity)).dedup.length ≠
            ((p.discounts.getD []).map (fun d => d.minimumQuantity)).length :=
          fun h => hnd (dedup_length_eq_iff.mp h)
        simp only [hdl, ne_eq, not_false_eq_true, if_true]
        constructor
        · intro h
          injection h with h
          subst h
          exact Or.inr (Or.inr (Or.inl ⟨trivial, hall, hnd, rfl⟩))
        · rintro (⟨hbadp, -⟩ | ⟨-, pre', d', post', hsplit', -, hbad', -⟩ |
            ⟨-, -, -, rfl⟩ | ⟨-, -, hnd', -⟩)
          · exact hbadp.elim
          · exact absurd hbad' (by
              intro hb; exact hnobad pre' d' post' hsplit' hb)
          · rfl
          · exact absurd hnd' hnd

theorem tierLe_to_jsLe {a b : ArticlePricingDiscountData}
    (ha : minQuantityBad a = false) (hb : minQuantityBad b = false)
    (h : tierLe a b = true) :
    jsLe a.minimumQuantity b.minimumQuantity = true := by
  rcases minQuantityBad_false_num ha with ⟨qa, hqa, -, -⟩
  rcases minQuantityBad_false_num hb with ⟨qb, hqb, -, -⟩
  simp only [tierLe, hqa, hqb, ratOf, decide_eq_true_eq] at h
  rw [hqa, hqb]
  simpa [jsLe] using h

theorem chain_rises_lt {l : List JSNum} :
    ∀ {prev : JSNum}, (∀ x ∈ l, ∃ q : ℚ, x = num q) →
    (∃ q : ℚ, prev = num q) →
    List.Chain (fun a b => jsLe b a = false) prev l →
    List.Chain (fun a b => jsLt a b = true) prev l := by
  induction l with
  | nil => intro _ _ _ _; exact List.Chain.nil
  | cons c rest ih =>
    intro prev hnum hprev hch
    rcases List.chain_cons.mp hch with ⟨h1, h2⟩
    rcases hprev with ⟨qp, rfl⟩
    rcases hnum c (List.mem_cons_self _ _) with ⟨qc, rfl⟩
    refine List.chain_cons.mpr ⟨?_, ?_⟩
    · have hlt : qp < qc := by simpa [jsLe] using h1
      simp [jsLt, hlt]
    · exact ih (fun x hx => hnum x (List.mem_cons_of_mem _ hx)) ⟨qc, rfl⟩ h2

/-- Claim C3: whenever `validateArticlePricing` succeeds, the returned
`discounts` list is present (it is `[]` when the input omitted
`discounts`), sorted ascending by `minimumQuantity`, and each tier
has a `discountPercentage` strictly greater than that of the previous one, the
first tier being compared against 0. -/
theorem validatePricing_output_sorted_and_strictly_rising
    (p : ArticlePricingData) (r : RequiredArticlePricingData)
    (h : validateArticlePricing p = .ok r) :
    (p.discounts = none → r.discounts = []) ∧
    (r.discounts.Pairwise fun a b =>
      jsLe a.minimumQuantity b.minimumQuantity = true) ∧
    List.Chain (fun a b => jsLt a b = true) (num 0)
      (r.discounts.map (·.discountPercentage)) := by
  rcases validateArticlePricing_ok_char.mp h with ⟨-, hall, -, hrise, hr⟩
  subst hr
  have hmem : ∀ x ∈ sortDiscounts (p.discounts.getD []), tierBad x = false :=
    fun x hx =>
      hall x ((sortDiscounts_perm (p.discounts.getD [])).mem_iff.mp hx)
  refine ⟨?_, ?_, ?_⟩
  · intro hnone; rw [hnone]; rfl
  · refine List.Pairwise.imp_of_mem ?_
      (sortDiscounts_sorted (p.discounts.getD []))
    intro a b ha hb hab
    exact tierLe_to_jsLe (tierBad_false_iff.mp (hmem a ha)).1
      (tierBad_false_iff.mp (hmem b hb)).1 hab
  · refine chain_rises_lt ?_ ⟨0, rfl⟩ hrise
    intro x hx
    rcases List.mem_map.mp hx with ⟨d, hd, rfl⟩
    rcases percentageBad_false_num (tierBad_false_iff.mp (hmem d hd)).2 with
      ⟨q, hq, -, -⟩
    exact ⟨q, hq⟩

theorem validatePricing_output_sorted_and_strictly_rising_witness :
    ((⟨.num 49, some [⟨.num 20, .num 15⟩, ⟨.num 10, .num 5⟩]⟩ :
        ArticlePricingData).discounts = none →
      ([⟨.num 10, .num 5⟩, ⟨.num 20, .num 15⟩] :
        List ArticlePricingDiscountData) = []) ∧
    (([⟨.num 10, .num 5⟩, ⟨.num 20, .num 15⟩] :
        List ArticlePricingDiscountData).Pairwise fun a b =>
      jsLe a.minimumQuantity b.minimumQuantity = true) ∧
    List.Chain (fun a b => jsLt a b = true) (num 0)
      (([⟨.num 10, .num 5⟩, ⟨.num 20, .num 15⟩] :
        List ArticlePricingDiscountData).map (·.discountPercentage)) :=
  validatePricing_output_sorted_and_strictly_rising
    ⟨.num 49, some [⟨.num 20, .num 15⟩, ⟨.num 10, .num 5⟩]⟩
    ⟨.num 49, [⟨.num 10, .num 5⟩, ⟨.num 20, .num 15⟩]⟩ (by decide)

/-- Claim C4: complete characterization of `validateArticlePricing` failures,
fixing the rejection priority: the price check fires first; then the
per-tier type/range checks in input order (`minimumQuantity` before
`discountPercentage` within a tier, and only on tiers whose predecessors
all passed); then, with the fields of every tier valid, the
duplicate-`minimumQuantity` check; and last, with the thresholds unique,
the strict-monotonicity check on the sorted tiers.  An input violating
several stages produces exactly the error of the earliest stage. -/
theorem validatePricing_rejection_priority
    (p : ArticlePricingData) (e : String) :
    validateArticlePricing p = .error e ↔
      (priceBad p.price = true ∧
        e = "Price must be an integer greater than 0.") ∨
      (priceBad p.price = false ∧
        ∃ pre d post, p.discounts.getD [] = pre ++ d :: post ∧
          (∀ x ∈ pre, tierBad x = false) ∧ tierBad d = true ∧
          e = tierErrorMsg d) ∨
      (priceBad p.price = false ∧
        (∀ d ∈ p.discounts.getD [], tierBad d = false) ∧
        ¬ (List.map (fun d => d.minimumQuantity) (p.discounts.getD [])).Nodup ∧
        e = "Discount quantities must be unique.") ∨
      (priceBad p.price = false ∧
        (∀ d ∈ p.discounts.getD [], tierBad d = false) ∧
        (List.map (fun d => d.minimumQuantity) (p.discounts.getD [])).Nodup ∧
        ¬ dpRises (.num 0) (sortDiscounts (p.discounts.getD [])) ∧
        e = "Each tier discount percentage must be greater than the previous tier\x27s discount.") :=
  validateArticlePricing_error_char

theorem validatePricing_rejection_priority_witness :
    validateArticlePricing
        ⟨.nan, some [⟨.num 1, .num 200⟩, ⟨.num 1, .num 200⟩]⟩ =
      .error "Price must be an integer greater than 0." :=
  (validatePricing_rejection_priority
      ⟨.nan, some [⟨.num 1, .num 200⟩, ⟨.num 1, .num 200⟩]⟩
      "Price must be an integer greater than 0.").mpr
    (Or.inl ⟨by decide, rfl⟩)

/-- Claim C5: `validatePricing({price: p})` succeeds with `{price: p, discounts: []}`
for every positive integer price `p`, and fails with the price error for
every price that is not a positive integer (including `NaN` and the
infinities). -/
theorem validatePricing_integer_price
    : (∀ n : ℤ, 0 < n →
        validateArticlePricing ⟨num (n : ℚ), none⟩ =
          .ok ⟨num (n : ℚ), []⟩) ∧
      (∀ (j : JSNum) (ds : Option (List ArticlePricingDiscountData)),
        (∀ n : ℤ, 0 < n → j ≠ num (n : ℚ)) →
        validateArticlePricing ⟨j, ds⟩ =
          .error "Price must be an integer greater than 0.") := by
  constructor
  · intro n hn
    refine validateArticlePricing_ok_char.mpr ⟨?_, by simp, by simp, ?_, rfl⟩
    · simp only [priceBad, JSNum.isNaN, JSNum.isInteger, jsLe,
        Rat.den_intCast]
      simp [not_le]
      exact_mod_cast hn
    · exact List.Chain.nil
  · intro j ds hno
    refine validateArticlePricing_error_char.mpr (Or.inl ⟨?_, rfl⟩)
    cases j with
    | nan => exact (by decide : priceBad .nan = true)
    | posInf => exact (by decide : priceBad .posInf = true)
    | negInf => exact (by decide : priceBad .negInf = true)
    | num q =>
      by_cases hq : q.den = 1
      · have hqz : ((q.num : ℤ) : ℚ) = q := (Rat.den_eq_one_iff q).mp hq
        by_cases hpos : 0 < q.num
        · exact absurd (by rw [hqz]) (hno q.num hpos)
        · have hle : q ≤ 0 := by
            rw [← hqz]
            exact_mod_cast le_of_not_lt hpos
          simp [priceBad, jsLe, hle]
      · simp [priceBad, JSNum.isInteger, hq]

theorem validatePricing_integer_price_witness :
    validateArticlePricing ⟨num ((3 : ℤ) : ℚ), none⟩ =
        .ok ⟨num ((3 : ℤ) : ℚ), []⟩ ∧
      validateArticlePricing ⟨.nan, none⟩ =
        .error "Price must be an integer greater than 0." :=
  ⟨validatePricing_integer_price.1 3 (by decide),
   validatePricing_integer_price.2 .nan none (fun n hn h => by cases h)⟩

/-- Claim C6: if every tier passes the per-field type/range checks but two or
more tiers share the same `minimumQuantity`, `validateArticlePricing`
fails — whatever the `discountPercentage` values are — and, whenever the
price is acceptable, the error is exactly the uniqueness error (the
duplicate check runs before the sort and the monotonicity walk). -/
theorem validatePricing_duplicate_quantities_fail
    (p : ArticlePricingData)
    (hall : ∀ d ∈ p.discounts.getD [], tierBad d = false)
    (hdup : ¬ (List.map (fun d => d.minimumQuantity)
      (p.discounts.getD [])).Nodup) :
    (∃ e, validateArticlePricing p = .error e) ∧
    (priceBad p.price = false →
      validateArticlePricing p = .error "Discount quantities must be unique.") := by
  constructor
  · by_cases hp : priceBad p.price
    · exact ⟨_, validateArticlePricing_error_char.mpr (Or.inl ⟨hp, rfl⟩)⟩
    · exact ⟨_, validateArticlePricing_error_char.mpr (Or.inr (Or.inr
        (Or.inl ⟨eq_false_of_ne_true hp, hall, hdup, rfl⟩)))⟩
  · intro hp
    exact validateArticlePricing_error_char.mpr (Or.inr (Or.inr
      (Or.inl ⟨hp, hall, hdup, rfl⟩)))

theorem validatePricing_duplicate_quantities_fail_witness :
    (∃ e, validateArticlePricing
      ⟨.num 49, some [⟨.num 20, .num 5⟩, ⟨.num 20, .num 10⟩]⟩ = .error e) ∧
    (priceBad (.num 49) = false →
      validateArticlePricing
        ⟨.num 49, some [⟨.num 20, .num 5⟩, ⟨.num 20, .num 10⟩]⟩ =
          .error "Discount quantities must be unique.") :=
  validatePricing_duplicate_quantities_fail
    ⟨.num 49, some [⟨.num 20, .num 5⟩, ⟨.num 20, .num 10⟩]⟩
    (by decide) (by decide)

/-- Claim C1: the payload builder always routes its `permalink` argument through
`validateArticlePermalink` first: a canonicalizer failure is propagated to
the caller unchanged (same error value, hence same message) and no payload
is produced, and any payload that is produced carries exactly the
canonicalized string as its `permalink`. -/
theorem createPayload_validates_permalink_first
    (p : String) (cp : Option ArticlePricingData) (s : Option Bool) :
    (∀ e, validateArticlePermalink p = .error e →
      createArticlePurchaseUrlPayload p cp s = .error e) ∧
    (∀ pl, createArticlePurchaseUrlPayload p cp s = .ok pl →
      validateArticlePermalink p = .ok pl.permalink) := by
  constructor
  · intro e he
    simp [createArticlePurchaseUrlPayload, he]
  · intro pl hpl
    cases hv : validateArticlePermalink p with
    | error e =>
      simp only [createArticlePurchaseUrlPayload, hv] at hpl
      cases hpl
    | ok c =>
      simp only [createArticlePurchaseUrlPayload, hv] at hpl
      cases cp with
      | none =>
        injection hpl with hpl
        rw [← hpl]
      | some cpv =>
        cases hw : validateArticlePricing cpv with
        | error e => simp only [hw] at hpl; cases hpl
        | ok v =>
          simp only [hw] at hpl
          injection hpl with hpl
          rw [← hpl]

theorem createPayload_validates_permalink_first_witness :
    createArticlePurchaseUrlPayload "http://example.com/a" none none =
      .error "Permalink must use \x22https://\x22" :=
  (createPayload_validates_permalink_first "http://example.com/a" none none).1
    "Permalink must use \x22https://\x22" (by decide)

/-- Claim C2: when `customPricing` is supplied, the payload builder runs the
pricing validator on it and stores the normalized result (with the
`discounts` field always present) under `customPricing`; in particular
the documented concrete scenario produces
`{permalink, customPricing: {price: 10, discounts: []}, showSharingContext: true}`. -/
theorem createPayload_normalizes_custom_pricing :
    (∀ (p : String) (cp : ArticlePricingData) (s : Option Bool) (c : String),
      validateArticlePermalink p = .ok c →
      createArticlePurchaseUrlPayload p (some cp) s =
        (validateArticlePricing cp).map fun v =>
          ⟨c, some v, if s = some true then some true else none⟩) ∧
    createArticlePurchaseUrlPayload "https://example.com/a"
        (some ⟨.num 10, none⟩) (some true) =
      .ok ⟨"https://example.com/a", some ⟨.num 10, []⟩, some true⟩ := by
  constructor
  · intro p cp s c hperm
    rw [createArticlePurchaseUrlPayload, hperm]
    cases hv : validateArticlePricing cp <;> simp [hv, Except.map]
  · decide

theorem createPayload_normalizes_custom_pricing_witness :
    createArticlePurchaseUrlPayload "https://example.com/a"
        (some ⟨.num 10, none⟩) none =
      (validateArticlePricing ⟨.num 10, none⟩).map fun v =>
        ⟨"https://example.com/a", some v,
          if (none : Option Bool) = some true then some true else none⟩ :=
  createPayload_normalizes_custom_pricing.1 "https://example.com/a"
    ⟨.num 10, none⟩ none "https://example.com/a" (by decide)

/-- Claim C9: key presence in the built payload is absence-based: the
`showSharingContext` key is present (with value `true`) exactly when the
caller passed `true` — it is never present as `false` — and an omitted
`customPricing` leaves that key absent; concretely,
`buildPayload('https://example.com/a', undefined, undefined)` yields a
payload with only the `permalink` key populated. -/
theorem createPayload_key_presence :
    (∀ (p : String) (cp : Option ArticlePricingData) (s : Option Bool)
      (pl : ArticlePurchaseUrlPayload),
      createArticlePurchaseUrlPayload p cp s = .ok pl →
      (pl.showSharingContext = some true ↔ s = some true) ∧
      pl.showSharingContext ≠ some false ∧
      (cp = none → pl.customPricing = none)) ∧
    createArticlePurchaseUrlPayload "https://example.com/a" none none =
      .ok ⟨"https://example.com/a", none, none⟩ := by
  constructor
  · intro p cp s pl hpl
    cases hv : validateArticlePermalink p with
    | error e =>
      simp only [createArticlePurchaseUrlPayload, hv] at hpl
      cases hpl
    | ok c =>
      simp only [createArticlePurchaseUrlPayload, hv] at hpl
      have hfields : pl.showSharingContext =
          (if s = some true then some true else none) ∧
          (cp = none → pl.customPricing = none) := by
        cases cp with
        | none =>
          injection hpl with hpl
          rw [← hpl]
          exact ⟨rfl, fun _ => rfl⟩
        | some cpv =>
          cases hw : validateArticlePricing cpv with
          | error e => simp only [hw] at hpl; cases hpl
          | ok v =>
            simp only [hw] at hpl
            injection hpl with hpl
            rw [← hpl]
            exact ⟨rfl, fun h => by cases h⟩
      rcases hfields with ⟨hs, hcp⟩
      refine ⟨?_, ?_, hcp⟩
      · rw [hs]
        by_cases h : s = some true <;> simp [h]
      · rw [hs]
        by_cases h : s = some true <;> simp [h]
  · decide

theorem createPayload_key_presence_witness :
    ((⟨"https://example.com/a", none, none⟩ :
        ArticlePurchaseUrlPayload).showSharingContext = some true ↔
      (none : Option Bool) = some true) ∧
    (⟨"https://example.com/a", none, none⟩ :
        ArticlePurchaseUrlPayload).showSharingContext ≠ some false ∧
    ((none : Option ArticlePricingData) = none →
      (⟨"https://example.com/a", none, none⟩ :
        ArticlePurchaseUrlPayload).customPricing = none) :=
  createPayload_key_presence.1 "https://example.com/a" none none
    ⟨"https://example.com/a", none, none⟩ (by decide)

/-!
## URL model lemmas
-/

theorem lowerChar_cases (c : Char) :
    lowerChar c = c ∨ lowerChar c ∈ lowercaseLetters := by
  unfold lowerChar
  split
  all_goals first
    | exact Or.inl rfl
    | exact Or.inr (by decide)

theorem lowerChar_fix_of_lower : ∀ c ∈ lowercaseLetters, lowerChar c = c := by
  decide

theorem lowerChar_idem (c : Char) : lowerChar (lowerChar c) = lowerChar c := by
  rcases lowerChar_cases c with h | h
  · rw [h, h]
  · exact lowerChar_fix_of_lower _ h

theorem lowerChar_eq_of_not_lower {c d : Char} (hd : d ∉ lowercaseLetters)
    (h : lowerChar c = d) : c = d := by
  rcases lowerChar_cases c with hc | hc
  · rw [← hc, h]
  · rw [h] at hc; exact absurd hc hd

theorem splitFirst_eq_some {d : Char} :
    ∀ {l x y : List Char}, splitFirst d l = some (x, y) →
      l = x ++ d :: y ∧ d ∉ x := by
  intro l
  induction l with
  | nil => intro x y h; cases h
  | cons c cs ih =>
    intro x y h
    by_cases hc : c = d
    · subst hc
      simp only [splitFirst, if_pos rfl] at h
      injection h with h
      injection h with h1 h2
      subst h1; subst h2
      exact ⟨rfl, by simp⟩
    · simp only [splitFirst, if_neg hc] at h
      cases hrec : splitFirst d cs with
      | none => rw [hrec] at h; cases h
      | some pr =>
        obtain ⟨x', y'⟩ := pr
        rw [hrec] at h
        injection h with h
        injection h with h1 h2
        subst h1; subst h2
        rcases ih hrec with ⟨hl, hnx⟩
        refine ⟨by rw [hl, List.cons_append], ?_⟩
        intro hmem
        rcases List.mem_cons.mp hmem with rfl | hmem
        · exact hc rfl
        · exact hnx hmem

theorem splitFirst_eq_none {d : Char} :
    ∀ {l : List Char}, d ∉ l → splitFirst d l = none := by
  intro l
  induction l with
  | nil => intro _; rfl
  | cons c cs ih =>
    intro h
    have hc : ¬ c = d := fun hcd => h (hcd ▸ List.mem_cons_self c cs)
    have hcs : d ∉ cs := fun hm => h (List.mem_cons_of_mem _ hm)
    simp only [splitFirst, if_neg hc, ih hcs]

theorem splitFirst_none_not_mem {d : Char} :
    ∀ {l : List Char}, splitFirst d l = none → d ∉ l := by
  intro l
  induction l with
  | nil => intro _ h; cases h
  | cons c cs ih =>
    intro h hmem
    by_cases hc : c = d
    · rw [splitFirst, if_pos hc] at h; cases h
    · rw [splitFirst, if_neg hc] at h
      cases hrec : splitFirst d cs with
      | some pr => rw [hrec] at h; cases h
      | none =>
        rcases List.mem_cons.mp hmem with rfl | hmem
        · exact hc rfl
        · exact ih hrec hmem

theorem splitLast_none_not_mem {d : Char} :
    ∀ {l : List Char}, splitLast d l = none → d ∉ l := by
  intro l
  induction l with
  | nil => intro _ h; cases h
  | cons c cs ih =>
    intro h hmem
    cases hrec : splitLast d cs with
    | some pr =>
      simp only [splitLast, hrec] at h
      cases h
    | none =>
      simp only [splitLast, hrec] at h
      by_cases hc : c = d
      · rw [if_pos hc] at h; cases h
      · rcases List.mem_cons.mp hmem with rfl | hmem
        · exact hc rfl
        · exact ih hrec hmem

theorem splitLast_eq_some {d : Char} :
    ∀ {l x y : List Char}, splitLast d l = some (x, y) →
      l = x ++ d :: y ∧ d ∉ y := by
  intro l
  induction l with
  | nil => intro x y h; cases h
  | cons c cs ih =>
    intro x y h
    cases hrec : splitLast d cs with
    | some pr =>
      obtain ⟨x', y'⟩ := pr
      simp only [splitLast, hrec] at h
      injection h with h
      injection h with h1 h2
      subst h1; subst h2
      rcases ih hrec with ⟨hl, hny⟩
      exact ⟨by rw [hl, List.cons_append], hny⟩
    | none =>
      simp only [splitLast, hrec] at h
      by_cases hc : c = d
      · subst hc
        rw [if_pos rfl] at h
        injection h with h
        injection h with h1 h2
        subst h1; subst h2
        exact ⟨rfl, splitLast_none_not_mem hrec⟩
      · rw [if_neg hc] at h; cases h

theorem splitLast_eq_none {d : Char} :
    ∀ {l : List Char}, d ∉ l → splitLast d l = none := by
  intro l
  induction l with
  | nil => intro _; rfl
  | cons c cs ih =>
    intro h
    have hc : ¬ c = d := fun hcd => h (hcd ▸ List.mem_cons_self c cs)
    have hcs : d ∉ cs := fun hm => h (List.mem_cons_of_mem _ hm)
    simp only [splitLast, ih hcs, if_neg hc]

theorem toDigitsCore_ne_nil {b : Nat} :
    ∀ {fuel n : Nat} {ds : List Char}, (ds ≠ [] ∨ 0 < fuel) →
      Nat.toDigitsCore b fuel n ds ≠ [] := by
  intro fuel
  induction fuel with
  | zero =>
    intro n ds h
    rcases h with h | h
    · exact h
    · exact absurd h (by decide)
  | succ fuel ih =>
    intro n ds _
    show (if n / b = 0 then _ else _) ≠ []
    by_cases hz : n / b = 0
    · simp only [hz, if_pos rfl]
      intro h; cases h
    · rw [if_neg hz]
      exact ih (Or.inl (by intro h; cases h))

theorem toDigits_ne_nil {b n : Nat} : Nat.toDigits b n ≠ [] :=
  toDigitsCore_ne_nil (Or.inr (Nat.succ_pos n))

theorem portString_empty_iff {u : URLRec} : u.portString = [] ↔ u.port = none := by
  cases hp : u.port with
  | none => simp [URLRec.portString, hp]
  | some n =>
    simp only [URLRec.portString, hp]
    constructor
    · intro h; exact absurd h toDigits_ne_nil
    · intro h; cases h

theorem search_empty_iff {u : URLRec} :
    u.search = [] ↔ (u.query = none ∨ u.query = some []) := by
  cases hq : u.query with
  | none => simp [URLRec.search, hq]
  | some q =>
    cases q with
    | nil => simp [URLRec.search, hq]
    | cons c cs => simp [URLRec.search, hq]

theorem hash_empty_iff {u : URLRec} :
    u.hash = [] ↔ (u.fragment = none ∨ u.fragment = some []) := by
  cases hf : u.fragment with
  | none => simp [URLRec.hash, hf]
  | some f =>
    cases f with
    | nil => simp [URLRec.hash, hf]
    | cons c cs => simp [URLRec.hash, hf]

theorem protocol_https_iff {u : URLRec} :
    u.protocol = "https:".data ↔ u.scheme = "https".data := by
  constructor
  · intro h
    have := congrArg List.dropLast h
    simpa [URLRec.protocol, List.dropLast_concat] using this
  · intro h
    simp [URLRec.protocol, h]

theorem host_facts_aux {hostPart : List Char}
    (hne : hostPart.isEmpty = false)
    (hmem : ∀ c ∈ hostPart, isAuthorityEnd c = false ∧ c ≠ ':' ∧ c ≠ '@') :
    hostPart.map lowerChar ≠ [] ∧
    (hostPart.map lowerChar).map lowerChar = hostPart.map lowerChar ∧
    ∀ c ∈ hostPart.map lowerChar,
      c ≠ '/' ∧ c ≠ '?' ∧ c ≠ '#' ∧ c ≠ ':' ∧ c ≠ '@' := by
  refine ⟨?_, ?_, ?_⟩
  · intro h
    rw [List.map_eq_nil_iff] at h
    rw [h] at hne
    cases hne
  · rw [List.map_map]
    apply List.map_congr_left
    intro c _
    exact lowerChar_idem c
  · intro c hc
    rcases List.mem_map.mp hc with ⟨c0, hc0, rfl⟩
    rcases hmem c0 hc0 with ⟨hend, hcolon, hat⟩
    have hend' : ¬c0 = '/' ∧ ¬c0 = '?' ∧ ¬c0 = '#' := by
      simpa [isAuthorityEnd, and_assoc] using hend
    refine ⟨?_, ?_, ?_, ?_, ?_⟩ <;> intro h
    · exact hend'.1 (lowerChar_eq_of_not_lower (by decide) h)
    · exact hend'.2.1 (lowerChar_eq_of_not_lower (by decide) h)
    · exact hend'.2.2 (lowerChar_eq_of_not_lower (by decide) h)
    · exact hcolon (lowerChar_eq_of_not_lower (by decide) h)
    · exact hat (lowerChar_eq_of_not_lower (by decide) h)

theorem parseAuthority_inv {a un pw host : List Char} {port : Option Nat}
    (h : parseAuthority a = some (un, pw, host, port))
    (ha : ∀ c ∈ a, isAuthorityEnd c = false) :
    host ≠ [] ∧ host.map lowerChar = host ∧
    ∀ c ∈ host, c ≠ '/' ∧ c ≠ '?' ∧ c ≠ '#' ∧ c ≠ ':' ∧ c ≠ '@' := by
  have main : ∀ (hp : List Char), (∀ c ∈ hp, c ∈ a) → '@' ∉ hp →
      ∀ (hostPart : List Char), (∀ c ∈ hostPart, c ∈ hp) → ':' ∉ hostPart →
      hostPart.isEmpty = false → host = hostPart.map lowerChar →
      host ≠ [] ∧ host.map lowerChar = host ∧
      ∀ c ∈ host, c ≠ '/' ∧ c ≠ '?' ∧ c ≠ '#' ∧ c ≠ ':' ∧ c ≠ '@' := by
    intro hp hsub hat hostPart hsub2 hcolon hne hhost
    subst hhost
    exact host_facts_aux hne (fun c hc =>
      ⟨ha c (hsub c (hsub2 c hc)),
       fun hcc => hcolon (hcc ▸ hc),
       fun hcc => hat (hcc ▸ hsub2 c hc)⟩)
  simp only [parseAuthority] at h
  cases hsl : splitLast '@' a with
  | some pr =>
    obtain ⟨ui, hp⟩ := pr
    rcases splitLast_eq_some hsl with ⟨hae, hatn⟩
    simp only [hsl] at h
    have hsub : ∀ c ∈ hp, c ∈ a := by
      intro c hc
      rw [hae]
      exact List.mem_append.mpr (Or.inr (List.mem_cons_of_mem _ hc))
    cases hsf : splitFirst ':' hp with
    | some pr2 =>
      obtain ⟨hostPart, portPart⟩ := pr2
      rcases splitFirst_eq_some hsf with ⟨hpe, hcn⟩
      simp only [hsf] at h
      by_cases he : hostPart.isEmpty
      · rw [if_pos he] at h; cases h
      · rw [if_neg he] at h
        cases hpp : parsePort portPart with
        | none => rw [hpp] at h; cases h
        | some po =>
          rw [hpp] at h
          injection h with h
          simp only [Prod.mk.injEq] at h
          exact main hp hsub hatn hostPart
            (fun c hc => by
              rw [hpe]; exact List.mem_append.mpr (Or.inl hc))
            hcn (Bool.eq_false_iff.mpr he) h.2.2.1.symm
    | none =>
      simp only [hsf] at h
      by_cases he : hp.isEmpty
      · rw [if_pos he] at h; cases h
      · rw [if_neg he] at h
        injection h with h
        simp only [Prod.mk.injEq] at h
        exact main hp hsub hatn hp (fun c hc => hc)
          (splitFirst_none_not_mem hsf) (Bool.eq_false_iff.mpr he)
          h.2.2.1.symm
  | none =>
    have hatn : '@' ∉ a := splitLast_none_not_mem hsl
    simp only [hsl] at h
    cases hsf : splitFirst ':' a with
    | some pr2 =>
      obtain ⟨hostPart, portPart⟩ := pr2
      rcases splitFirst_eq_some hsf with ⟨hpe, hcn⟩
      simp only [hsf] at h
      by_cases he : hostPart.isEmpty
      · rw [if_pos he] at h; cases h
      · rw [if_neg he] at h
        cases hpp : parsePort portPart with
        | none => rw [hpp] at h; cases h
        | some po =>
          rw [hpp] at h
          injection h with h
          simp only [Prod.mk.injEq] at h
          exact main a (fun c hc => hc) hatn hostPart
            (fun c hc => by
              rw [hpe]; exact List.mem_append.mpr (Or.inl hc))
            hcn (Bool.eq_false_iff.mpr he) h.2.2.1.symm
    | none =>
      simp only [hsf] at h
      by_cases he : a.isEmpty
      · rw [if_pos he] at h; cases h
      · rw [if_neg he] at h
        injection h with h
        simp only [Prod.mk.injEq] at h
        exact main a (fun c hc => hc) hatn a (fun c hc => hc)
          (splitFirst_none_not_mem hsf) (Bool.eq_false_iff.mpr he)
          h.2.2.1.symm

theorem parseAuthority_host_only {host : List Char}
    (hne : host ≠ []) (hcolon : ':' ∉ host) (hat : '@' ∉ host)
    (hlower : host.map lowerChar = host) :
    parseAuthority host = some ([], [], host, none) := by
  have hie : host.isEmpty = false := by
    cases host with
    | nil => exact absurd rfl hne
    | cons c t => rfl
  simp only [parseAuthority, splitLast_eq_none hat,
    splitFirst_eq_none hcolon, hie]
  simp [hlower]

theorem parsePathQueryFragment_fst (aa : List Char) :
    (parsePathQueryFragment aa).1 =
      if (aa.takeWhile (fun c => !(c = '?' || c = '#'))).isEmpty then ['/']
      else aa.takeWhile (fun c => !(c = '?' || c = '#')) := rfl

theorem parsePathQueryFragment_inv {aa pth : List Char}
    {qry frg : Option (List Char)}
    (h : parsePathQueryFragment aa = (pth, qry, frg))
    (hhead : ∀ c t, aa = c :: t → isAuthorityEnd c = true) :
    pth ≠ [] ∧ pth.head? = some '/' ∧
      ∀ c ∈ pth, ¬(c = '?' ∨ c = '#') := by
  have hfst : (parsePathQueryFragment aa).1 = pth := by rw [h]
  rw [parsePathQueryFragment_fst] at hfst
  cases aa with
  | nil =>
    simp only [List.takeWhile_nil, List.isEmpty_nil, if_true] at hfst
    subst hfst
    exact ⟨by decide, rfl, by decide⟩
  | cons c t =>
    have hc3 : c = '/' ∨ c = '?' ∨ c = '#' := by
      simpa [isAuthorityEnd, or_assoc] using hhead c t rfl
    rcases hc3 with rfl | rfl | rfl
    · rw [List.takeWhile_cons_of_pos (by decide)] at hfst
      simp only [List.isEmpty_cons, Bool.false_eq_true, if_false] at hfst
      subst hfst
      refine ⟨(by intro hx; cases hx), rfl, ?_⟩
      intro x hx
      rcases List.mem_cons.mp hx with rfl | hx
      · decide
      · simpa using List.mem_takeWhile_imp hx
    · rw [List.takeWhile_cons_of_neg (by decide)] at hfst
      simp only [List.isEmpty_nil, if_true] at hfst
      subst hfst
      exact ⟨by decide, rfl, by decide⟩
    · rw [List.takeWhile_cons_of_neg (by decide)] at hfst
      simp only [List.isEmpty_nil, if_true] at hfst
      subst hfst
      exact ⟨by decide, rfl, by decide⟩

theorem parsePathQueryFragment_reparse {pth : List Char}
    {qry frg : Option (List Char)}
    (hne : pth ≠ []) (hmem : ∀ c ∈ pth, ¬(c = '?' ∨ c = '#'))
    (hq : qry = none ∨ qry = some []) (hf : frg = none ∨ frg = some []) :
    parsePathQueryFragment (pth ++ queryTail qry ++ fragmentTail frg) =
      (pth, qry, frg) := by
  have hall : ∀ c ∈ pth, (fun x => !(x = '?' || x = '#')) c = true := by
    intro c hc
    have h2 := hmem c hc
    simp only [not_or] at h2
    simp [h2.1, h2.2]
  have hie : pth.isEmpty = false := by
    cases pth with
    | nil => exact absurd rfl hne
    | cons c t => rfl
  have htake : ∀ tail : List Char,
      (tail = [] ∨ tail = ['?'] ∨ ∃ t2, tail = '?' :: t2) ∨
        (tail = ['#'] ∨ ∃ t2, tail = '#' :: t2) →
      (pth ++ tail).takeWhile (fun x => !(x = '?' || x = '#')) = pth ∧
      (pth ++ tail).dropWhile (fun x => !(x = '?' || x = '#')) = tail := by
    intro tail htail
    rw [List.takeWhile_append_of_pos hall, List.dropWhile_append_of_pos hall]
    rcases htail with (rfl | rfl | ⟨t2, rfl⟩) | (rfl | ⟨t2, rfl⟩)
    · exact ⟨by simp, rfl⟩
    · exact ⟨by simp [List.takeWhile_cons_of_neg], by simp⟩
    · exact ⟨by rw [List.takeWhile_cons_of_neg (by decide)]; simp, by
        rw [List.dropWhile_cons_of_neg (by decide)]⟩
    · exact ⟨by rw [List.takeWhile_cons_of_neg (by decide)]; simp, by
        rw [List.dropWhile_cons_of_neg (by decide)]⟩
    · exact ⟨by rw [List.takeWhile_cons_of_neg (by decide)]; simp, by
        rw [List.dropWhile_cons_of_neg (by decide)]⟩
  rcases hq with rfl | rfl <;> rcases hf with rfl | rfl <;>
    simp only [queryTail, fragmentTail]
  · rcases htake [] (Or.inl (Or.inl rfl)) with ⟨ht, hd⟩
    simp only [List.append_nil] at ht hd ⊢
    simp only [parsePathQueryFragment]
    rw [ht, hd, hie]
    simp
  · rcases htake ['#'] (Or.inr (Or.inl rfl)) with ⟨ht, hd⟩
    simp only [List.append_nil]
    simp only [parsePathQueryFragment]
    rw [ht, hd, hie]
    simp
  · rcases htake ['?'] (Or.inl (Or.inr (Or.inl rfl))) with ⟨ht, hd⟩
    simp only [List.append_nil]
    simp only [parsePathQueryFragment]
    rw [ht, hd, hie]
    simp
  · rcases htake ['?', '#'] (Or.inl (Or.inr (Or.inr ⟨['#'], rfl⟩)))
      with ⟨ht, hd⟩
    rw [List.append_assoc]
    simp only [List.cons_append, List.nil_append]
    simp only [parsePathQueryFragment]
    rw [ht, hd, hie]
    simp

theorem parseURLAux_inv {scheme rest : List Char} {u : URLRec}
    (h : parseURLAux scheme rest = some u) :
    u.scheme = scheme ∧
    u.host ≠ [] ∧ u.host.map lowerChar = u.host ∧
    (∀ c ∈ u.host, c ≠ '/' ∧ c ≠ '?' ∧ c ≠ '#' ∧ c ≠ ':' ∧ c ≠ '@') ∧
    u.pathname ≠ [] ∧ u.pathname.head? = some '/' ∧
    (∀ c ∈ u.pathname, ¬(c = '?' ∨ c = '#')) := by
  simp only [parseURLAux] at h
  cases ha : parseAuthority (rest.takeWhile (fun c => !isAuthorityEnd c)) with
  | none => rw [ha] at h; cases h
  | some q =>
    obtain ⟨un, pw, host, port⟩ := q
    rw [ha] at h
    rcases hpq : parsePathQueryFragment
        (rest.dropWhile (fun c => !isAuthorityEnd c)) with ⟨pth, qry, frg⟩
    rw [hpq] at h
    injection h with h
    subst h
    have hauth : ∀ c ∈ rest.takeWhile (fun c => !isAuthorityEnd c),
        isAuthorityEnd c = false := by
      intro c hc
      have := List.mem_takeWhile_imp hc
      simpa using this
    rcases parseAuthority_inv ha hauth with ⟨h1, h2, h3⟩
    have hdrop : ∀ c t,
        rest.dropWhile (fun c => !isAuthorityEnd c) = c :: t →
        isAuthorityEnd c = true := by
      intro c t hct
      have hw := List.head?_dropWhile_not (fun c => !isAuthorityEnd c) rest
      rw [hct] at hw
      simpa using hw
    rcases parsePathQueryFragment_inv hpq hdrop with ⟨p1, p2, p3⟩
    exact ⟨rfl, h1, h2, h3, p1, p2, p3⟩

theorem parseURLAux_reparse {scheme host pth : List Char}
    {qry frg : Option (List Char)}
    (hhne : host ≠ [])
    (hhost : ∀ c ∈ host, c ≠ '/' ∧ c ≠ '?' ∧ c ≠ '#' ∧ c ≠ ':' ∧ c ≠ '@')
    (hlower : host.map lowerChar = host)
    (hpne : pth ≠ []) (hphead : pth.head? = some '/')
    (hpmem : ∀ c ∈ pth, ¬(c = '?' ∨ c = '#'))
    (hq : qry = none ∨ qry = some []) (hf : frg = none ∨ frg = some []) :
    parseURLAux scheme (host ++ pth ++ queryTail qry ++ fragmentTail frg) =
      some ⟨scheme, [], [], host, none, pth, qry, frg⟩ := by
  have hhall : ∀ c ∈ host, (fun c => !isAuthorityEnd c) c = true := by
    intro c hc
    rcases hhost c hc with ⟨h1, h2, h3, -, -⟩
    simp [isAuthorityEnd, h1, h2, h3]
  obtain ⟨c0, pt, rfl⟩ : ∃ c0 pt, pth = c0 :: pt := by
    cases pth with
    | nil => exact absurd rfl hpne
    | cons c0 pt => exact ⟨c0, pt, rfl⟩
  have hc0 : c0 = '/' := by simpa using hphead
  subst hc0
  have hcolon : ':' ∉ host := fun hm => (hhost _ hm).2.2.2.1 rfl
  have hat : '@' ∉ host := fun hm => (hhost _ hm).2.2.2.2 rfl
  have key : ∀ tail : List Char,
      parseURLAux scheme (host ++ ('/' :: pt) ++ tail) =
        (match parsePathQueryFragment ('/' :: pt ++ tail) with
         | (p, q, f) => some ⟨scheme, [], [], host, none, p, q, f⟩) := by
    intro tail
    have ht : (host ++ ('/' :: pt) ++ tail).takeWhile
        (fun c => !isAuthorityEnd c) = host := by
      rw [List.append_assoc, List.takeWhile_append_of_pos hhall,
        List.cons_append, List.takeWhile_cons_of_neg (by decide)]
      simp
    have hd : (host ++ ('/' :: pt) ++ tail).dropWhile
        (fun c => !isAuthorityEnd c) = '/' :: pt ++ tail := by
      rw [List.append_assoc, List.dropWhile_append_of_pos hhall,
        List.cons_append, List.dropWhile_cons_of_neg (by decide)]
    simp only [parseURLAux, ht, hd,
      parseAuthority_host_only hhne hcolon hat hlower]
  rw [List.append_assoc (host ++ ('/' :: pt))]
  rw [key (queryTail qry ++ fragmentTail frg)]
  have hrep := @parsePathQueryFragment_reparse ('/' :: pt) qry frg hpne hpmem hq hf
  rw [show ('/' :: pt) ++ (queryTail qry ++ fragmentTail frg) =
      ('/' :: pt) ++ queryTail qry ++ fragmentTail frg from
    (List.append_assoc _ _ _).symm]
  rw [hrep]

theorem parseSchemeParts_https (t : List Char) :
    parseSchemeParts (['h', 't', 't', 'p', 's'] ++ ':' :: t) =
      some (['h', 't', 't', 'p', 's'], t) := by
  show parseSchemeParts ('h' :: 't' :: 't' :: 'p' :: 's' :: ':' :: t) =
    some (['h', 't', 't', 'p', 's'], t)
  have htake : ('h' :: 't' :: 't' :: 'p' :: 's' :: ':' :: t).takeWhile
      isSchemeChar = 'h' :: 't' :: 't' :: 'p' :: 's' :: [] := by
    rw [List.takeWhile_cons_of_pos (by decide),
      List.takeWhile_cons_of_pos (by decide),
      List.takeWhile_cons_of_pos (by decide),
      List.takeWhile_cons_of_pos (by decide),
      List.takeWhile_cons_of_pos (by decide),
      List.takeWhile_cons_of_neg (by decide)]
  have hdrop : ('h' :: 't' :: 't' :: 'p' :: 's' :: ':' :: t).dropWhile
      isSchemeChar = ':' :: t := by
    rw [List.dropWhile_cons_of_pos (by decide),
      List.dropWhile_cons_of_pos (by decide),
      List.dropWhile_cons_of_pos (by decide),
      List.dropWhile_cons_of_pos (by decide),
      List.dropWhile_cons_of_pos (by decide),
      List.dropWhile_cons_of_neg (by decide)]
  simp only [parseSchemeParts, htake, hdrop]
  rw [if_pos (by decide)]
  rfl

theorem parseURL_inv {cs : List Char} {u : URLRec}
    (h : parseURL cs = some u) :
    u.host ≠ [] ∧ u.host.map lowerChar = u.host ∧
    (∀ c ∈ u.host, c ≠ '/' ∧ c ≠ '?' ∧ c ≠ '#' ∧ c ≠ ':' ∧ c ≠ '@') ∧
    u.pathname ≠ [] ∧ u.pathname.head? = some '/' ∧
    (∀ c ∈ u.pathname, ¬(c = '?' ∨ c = '#')) := by
  simp only [parseURL] at h
  cases hs : parseSchemeParts cs with
  | none => rw [hs] at h; cases h
  | some pr =>
    obtain ⟨scheme, afterScheme⟩ := pr
    simp only [hs] at h
    exact (parseURLAux_inv h).2

theorem href_validated {u : URLRec}
    (hu : u.username = []) (hp : u.password = []) (hport : u.port = none) :
    u.href = u.scheme ++ [':', '/', '/'] ++ u.host ++ u.pathname ++
      queryTail u.query ++ fragmentTail u.fragment := by
  simp [URLRec.href, hu, hp, hport, List.append_assoc]

/-- Claim C8: `validateArticlePermalink` is idempotent: whenever it succeeds,
re-validating the returned canonical string succeeds and returns that
same string (the second pass is the identity). -/
theorem validatePermalink_idempotent (s c : String)
    (h : validateArticlePermalink s = .ok c) :
    validateArticlePermalink c = .ok c := by
  unfold validateArticlePermalink at h
  cases hp : parseURL s.data with
  | none =>
    simp only [hp] at h
    exact absurd h (by simp)
  | some u =>
    simp only [hp] at h
    obtain ⟨sch, un, pw, ho, po, pa, qu, fr⟩ := u
    split at h
    · exact absurd h (by simp)
    · split at h
      · exact absurd h (by simp)
      · split at h
        · exact absurd h (by simp)
        · split at h
          · exact absurd h (by simp)
          · split at h
            · exact absurd h (by simp)
            · rename_i h1 h2 h3 h4 h5
              injection h with h
              subst h
              have hsch : sch = "https".data :=
                protocol_https_iff.mp (not_ne_iff.mp h1)
              subst hsch
              have hqshape : qu = none ∨ qu = some [] :=
                search_empty_iff.mp (not_ne_iff.mp h2)
              have hpo : po = none :=
                portString_empty_iff.mp (not_ne_iff.mp h3)
              subst hpo
              have hfshape : fr = none ∨ fr = some [] :=
                hash_empty_iff.mp (not_ne_iff.mp h4)
              have hun : un = [] := by
                rcases not_or.mp h5 with ⟨-, h'⟩
                exact not_ne_iff.mp h'
              have hpw : pw = [] := by
                rcases not_or.mp h5 with ⟨h', -⟩
                exact not_ne_iff.mp h'
              subst hun
              subst hpw
              rcases parseURL_inv hp with
                ⟨hhne, hhlower, hhmem, hpne, hphead, hpmem⟩
              obtain ⟨h0, htl, rfl⟩ : ∃ h0 htl, ho = h0 :: htl := by
                cases ho with
                | nil => exact absurd rfl hhne
                | cons a b => exact ⟨a, b, rfl⟩
              have hh0 : ¬(h0 = '/') := (hhmem h0 (List.mem_cons_self _ _)).1
              have hhref : URLRec.href
                  ⟨"https".data, [], [], h0 :: htl, none, pa, qu, fr⟩ =
                  "https".data ++ ':' :: '/' :: '/' ::
                    ((h0 :: htl) ++ pa ++ queryTail qu ++ fragmentTail fr) := by
                simp [URLRec.href, List.append_assoc]
              have hparse : parseURL (URLRec.href
                  ⟨"https".data, [], [], h0 :: htl, none, pa, qu, fr⟩) =
                  some ⟨"https".data, [], [], h0 :: htl, none, pa, qu, fr⟩ := by
                rw [hhref]
                simp only [parseURL, parseSchemeParts_https]
                rw [List.dropWhile_cons_of_pos (by decide),
                  List.dropWhile_cons_of_pos (by decide)]
                simp only [List.cons_append]
                rw [List.dropWhile_cons_of_neg (by simpa using hh0)]
                exact @parseURLAux_reparse ['h', 't', 't', 'p', 's']
                  (h0 :: htl) pa qu fr (by intro hx; cases hx) hhmem
                  hhlower hpne hphead hpmem hqshape hfshape
              unfold validateArticlePermalink
              rw [show (String.mk (URLRec.href
                  ⟨"https".data, [], [], h0 :: htl, none, pa, qu, fr⟩)).data =
                  URLRec.href
                    ⟨"https".data, [], [], h0 :: htl, none, pa, qu, fr⟩
                from rfl]
              simp only [hparse]
              rw [if_neg (not_ne_iff.mpr (by rfl)),
                if_neg (not_ne_iff.mpr (search_empty_iff.mpr hqshape)),
                if_neg (not_ne_iff.mpr (by rfl)),
                if_neg (not_ne_iff.mpr (hash_empty_iff.mpr hfshape)),
                if_neg (by simp)]

theorem validatePermalink_idempotent_witness :
    validateArticlePermalink "https://EXAMPLE.com/a" = .ok "https://example.com/a" ∧
    validateArticlePermalink "https://example.com/a" = .ok "https://example.com/a" :=
  ⟨by decide,
   validatePermalink_idempotent "https://EXAMPLE.com/a" "https://example.com/a"
     (by decide)⟩

theorem validatePermalink_total (s : String) {u : URLRec}
    (hp : parseURL s.data = some u) :
    (validateArticlePermalink s = .ok (String.mk u.href) ∧
      u.protocol = "https:".data ∧ u.search = [] ∧ u.portString = [] ∧
      u.hash = [] ∧ u.username = [] ∧ u.password = []) ∨
    ((∃ e, validateArticlePermalink s = .error e) ∧
      (u.protocol ≠ "https:".data ∨ u.search ≠ [] ∨ u.portString ≠ [] ∨
        u.hash ≠ [] ∨ u.username ≠ [] ∨ u.password ≠ [])) := by
  have hv : validateArticlePermalink s =
      (if u.protocol ≠ "https:".data then
        .error "Permalink must use \x22https://\x22"
      else if u.search ≠ [] then
        .error "Permalink must not contain any query parameters"
      else if u.portString ≠ [] then
        .error "Permalink must not contain a port"
      else if u.hash ≠ [] then
        .error "Permalink must not contain a hash fragment"
      else if u.password ≠ [] ∨ u.username ≠ [] then
        .error "Permalink must not contain a user/password"
      else .ok (String.mk u.href)) := by
    unfold validateArticlePermalink
    simp only [hp]
  rw [hv]
  by_cases h1 : u.protocol ≠ "https:".data
  · exact Or.inr ⟨⟨_, by rw [if_pos h1]⟩, Or.inl h1⟩
  · rw [if_neg h1]
    by_cases h2 : u.search ≠ []
    · exact Or.inr ⟨⟨_, by rw [if_pos h2]⟩, Or.inr (Or.inl h2)⟩
    · rw [if_neg h2]
      by_cases h3 : u.portString ≠ []
      · exact Or.inr ⟨⟨_, by rw [if_pos h3]⟩, Or.inr (Or.inr (Or.inl h3))⟩
      · rw [if_neg h3]
        by_cases h4 : u.hash ≠ []
        · exact Or.inr ⟨⟨_, by rw [if_pos h4]⟩,
            Or.inr (Or.inr (Or.inr (Or.inl h4)))⟩
        · rw [if_neg h4]
          by_cases h5 : u.password ≠ [] ∨ u.username ≠ []
          · refine Or.inr ⟨⟨_, by rw [if_pos h5]⟩, ?_⟩
            rcases h5 with h5 | h5
            · exact Or.inr (Or.inr (Or.inr (Or.inr (Or.inr h5))))
            · exact Or.inr (Or.inr (Or.inr (Or.inr (Or.inl h5))))
          · rw [if_neg h5]
            rcases not_or.mp h5 with ⟨hpw, hun⟩
            exact Or.inl ⟨rfl, not_ne_iff.mp h1, not_ne_iff.mp h2,
              not_ne_iff.mp h3, not_ne_iff.mp h4, not_ne_iff.mp hun,
              not_ne_iff.mp hpw⟩

/-- Claim C7: `validateArticlePermalink` fails exactly when the input does not
parse as an absolute URL or the parsed URL has a non-`https` scheme, a
non-empty query string, an explicit port, a non-empty fragment, or
credentials; it succeeds on every bare secure canonical URL, and the
five documented concrete inputs fail with the documented rule. -/
theorem validatePermalink_failure_characterization :
    (∀ s : String, (∃ e, validateArticlePermalink s = .error e) ↔
      (parseURL s.data = none ∨
        ∃ u, parseURL s.data = some u ∧
          (u.protocol ≠ "https:".data ∨ u.search ≠ [] ∨
            u.portString ≠ [] ∨ u.hash ≠ [] ∨
            u.username ≠ [] ∨ u.password ≠ []))) ∧
    (∀ (s : String) (u : URLRec), parseURL s.data = some u →
      u.protocol = "https:".data → u.search = [] → u.portString = [] →
      u.hash = [] → u.username = [] → u.password = [] →
      validateArticlePermalink s = .ok (String.mk u.href)) ∧
    validateArticlePermalink "http://example.com/a" =
      .error "Permalink must use \x22https://\x22" ∧
    validateArticlePermalink "https://example.com/a?x=1" =
      .error "Permalink must not contain any query parameters" ∧
    validateArticlePermalink "https://example.com/a#x" =
      .error "Permalink must not contain a hash fragment" ∧
    validateArticlePermalink "https://example.com:3000/a" =
      .error "Permalink must not contain a port" ∧
    validateArticlePermalink "https://u:p@example.com/a" =
      .error "Permalink must not contain a user/password" := by
  refine ⟨?_, ?_, by decide, by decide, by decide, by decide, by decide⟩
  · intro s
    constructor
    · rintro ⟨e, he⟩
      cases hp : parseURL s.data with
      | none => exact Or.inl rfl
      | some u =>
        rcases validatePermalink_total s hp with ⟨hok, -⟩ | ⟨-, hcond⟩
        · rw [hok] at he; cases he
        · exact Or.inr ⟨u, rfl, hcond⟩
    · rintro (hnone | ⟨u, hp, hcond⟩)
      · refine ⟨"Permalink is not valid.", ?_⟩
        unfold validateArticlePermalink
        simp only [hnone]
      · rcases validatePermalink_total s hp with ⟨-, c1, c2, c3, c4, c5, c6⟩ |
          ⟨hex, -⟩
        · rcases hcond with h | h | h | h | h | h
          · exact absurd c1 h
          · exact absurd c2 h
          · exact absurd c3 h
          · exact absurd c4 h
          · exact absurd c5 h
          · exact absurd c6 h
        · exact hex
  · intro s u hp c1 c2 c3 c4 c5 c6
    rcases validatePermalink_total s hp with ⟨hok, -⟩ | ⟨-, hcond⟩
    · exact hok
    · rcases hcond with h | h | h | h | h | h
      · exact absurd c1 h
      · exact absurd c2 h
      · exact absurd c3 h
      · exact absurd c4 h
      · exact absurd c5 h
      · exact absurd c6 h

theorem validatePermalink_failure_characterization_witness :
    ∃ e, validateArticlePermalink "https://example.com/a#x" = .error e :=
  validatePermalink_failure_characterization.1 "https://example.com/a#x"
    |>.mpr (Or.inr ⟨⟨"https".data, [], [], "example.com".data, none,
      "/a".data, none, some ['x']⟩, by decide,
      Or.inr (Or.inr (Or.inr (Or.inl (by decide))))⟩)

/-- Claim C10: the URL parser elides the default secure port before the
explicit-port check runs: `https://example.com:443/a` validates
successfully to `https://example.com/a` (while a non-default port such
as 3000 is rejected), because `parsePort` normalizes `443` to "no
port". -/
theorem validatePermalink_default_port_elided :
    validateArticlePermalink "https://example.com:443/a" =
      .ok "https://example.com/a" ∧
    parsePort "443".data = some none ∧
    validateArticlePermalink "https://example.com:3000/a" =
      .error "Permalink must not contain a port" := by
  refine ⟨by decide, by decide, by decide⟩
